import Mathlib

/-!
Shallow embedding of `src/frontends/rust/rust_function_analyser/src/call_tree.rs`
(the fuzz-introspector Rust frontend: call-tree extraction and rendering),
together with theorems checking the natural-language specification against it.

Modelling conventions:
* Rust `HashMap` / `HashSet` values are modelled as lists with first-match
  lookup; iteration order of a map is the list order (the source's map
  iteration order is unspecified, which the specification acknowledges).
* Rust byte indices of string operations are modelled as character indices
  (all program-relevant text is ASCII).
* The external `syn` parser is out of scope per the specification; parsed
  syntax trees are inputs of the model, and the file parser is an
  uninterpreted function `String → Option SynFile` supplied by the caller.
* `i32` values are modelled as `Int` with the explicit range behaviour of the
  source (`str::parse::<i32>` range check, `usize as i32` truncation).
* Panicking paths (`expect` on a parse failure) and I/O failures are modelled
  with `Option`: `none` means the whole run aborts with no result.
* The recursion of `build_call_tree` over the (possibly cyclic) catalog graph
  is made structural by an explicit fuel parameter; theorems hold for every
  fuel value or are evaluated at an amply large fuel.
-/

namespace CallTree

/-- Rust `str::repeat`: `s` repeated `n` times. -/
def repeatStr (s : String) : Nat → String
  | 0 => ""
  | n + 1 => s ++ repeatStr s n

/-- Rust `str::replace(" ", "")` as applied to function names: drop every
space character. -/
def stripSpaces (s : String) : String := ⟨s.toList.filter (· ≠ ' ')⟩

/-- Rust `str::ends_with`. -/
def strEndsWith (s pat : String) : Bool := pat.toList.isSuffixOf s.toList

/-- Rust `str::contains(pat)`: substring occurrence test. -/
def containsSub (s pat : String) : Bool :=
  (List.range (s.toList.length + 1)).any (fun i => pat.toList.isPrefixOf (s.toList.drop i))

/-- Character positions at which the substring `"::"` starts in `s`. -/
def sepPositions (s : String) : List Nat :=
  (List.range s.toList.length).filter (fun i => [':', ':'].isPrefixOf (s.toList.drop i))

/-- Rust `str::rfind("::")`: the position of the last occurrence of `"::"`. -/
def rfindSep (s : String) : Option Nat := (sepPositions s).getLast?

/-- The first `n` characters of `s` (the Rust slice `&s[..pos]`). -/
def strTake (s : String) (n : Nat) : String := ⟨s.toList.take n⟩

/-- Rust `str::split("::")` (leftmost, non-overlapping matches), accumulator
holding the current segment reversed. -/
def splitSepAux : List Char → List Char → List String
  | [], acc => [⟨acc.reverse⟩]
  | ':' :: ':' :: rest, acc => ⟨acc.reverse⟩ :: splitSepAux rest []
  | c :: rest, acc => splitSepAux rest (c :: acc)

/-- Rust `str::split("::")`. -/
def splitSep (s : String) : List String := splitSepAux s.toList []

/-- Rust `str::split(',')`, accumulator holding the current segment reversed. -/
def splitCommaAux : List Char → List Char → List String
  | [], acc => [⟨acc.reverse⟩]
  | ',' :: rest, acc => ⟨acc.reverse⟩ :: splitCommaAux rest []
  | c :: rest, acc => splitCommaAux rest (c :: acc)

/-- Rust `str::split(',')`. -/
def splitComma (s : String) : List String := splitCommaAux s.toList []

/-- Rust `Vec::join("::")` / `[..].join("::")`. -/
def joinSep : List String → String
  | [] => ""
  | [s] => s
  | s :: rest => s ++ "::" ++ joinSep rest

/-- Rust `str::parse::<i32>()`: optional sign, at least one ASCII digit, all
characters digits, value within the `i32` range; anything else is a parse
error (`none`). -/
def parseI32 (s : String) : Option Int :=
  let signDigits : Int × List Char :=
    match s.toList with
    | '+' :: r => (1, r)
    | '-' :: r => (-1, r)
    | r => (1, r)
  let sign := signDigits.1
  let digits := signDigits.2
  if digits.isEmpty then none
  else if digits.all (·.isDigit) then
    let v : Int := sign * ((digits.foldl (fun acc c => 10 * acc + (c.toNat - 48)) 0 : Nat) : Int)
    if -(2 ^ 31) ≤ v ∧ v ≤ 2 ^ 31 - 1 then some v else none
  else none

/-- Rust `usize as i32` (two's-complement truncation to 32 bits). -/
def usizeToI32 (n : Nat) : Int :=
  let m : Nat := n % 2 ^ 32
  if m < 2 ^ 31 then (m : Int) else (m : Int) - 2 ^ 32

/-- Concatenation of a list of strings (used to relate rendered line lists to
the rendered output string). -/
def concatStrs : List String → String
  | [] => ""
  | s :: rest => s ++ concatStrs rest

/-- Modelled from the spec: a call edge recorded on a catalog entry — `src` is
an origin `"path,line"` string and `dst` the callee name as written.
(`CallSite` is declared in `analyse.rs`, which is not among the sources; only
the fields read by `call_tree.rs` and named by the spec are modelled.) -/
structure CallSite where
  src : String
  dst : String
deriving DecidableEq

/-- Modelled from the spec: a catalog entry for one known function
(`FunctionInfo` from `analyse.rs`, which is not among the sources). The spec's
FunctionRecord lists: qualified name, declared return type, file, argument
count/names/types, and the ordered list of call edges; the further numeric
bookkeeping fields that the writer zeroes are represented by `start_line` and
`end_line`. -/
structure FunctionInfo where
  name : String
  file : String
  return_type : String
  arg_count : Nat
  arg_names : List String
  arg_types : List String
  called_functions : List String
  callsites : List CallSite
  start_line : Nat
  end_line : Nat
deriving DecidableEq

/-- `HashMap::get` on a name-keyed map modelled as an association list with
first-match lookup. -/
def lookupAssoc (m : List (String × FunctionInfo)) (key : String) : Option FunctionInfo :=
  (m.find? (fun kv => kv.1 == key)).map (·.2)

/-- The name-keyed function map built by `collect` over `(f.name, f)` pairs
(source line 33): on duplicate names the last write wins. -/
def buildFunctionMap (functions : List FunctionInfo) : List (String × FunctionInfo) :=
  functions.foldl (fun m f => (f.name, f) :: m.filter (fun kv => kv.1 != f.name)) []

/-- The segment-stripping loop of `find_function` (source lines 508–514): try
the exact key obtained by joining the remaining segments, then drop the
leftmost segment and retry. -/
def stripSearch : List String → List (String × FunctionInfo) → Option FunctionInfo
  | [], _ => none
  | segs@(_ :: rest), m =>
    match lookupAssoc m (joinSep segs) with
    | some func => some func
    | none => stripSearch rest m

/-- `find_function` (source lines 493–518): exact key match, then the first
key in map iteration order that ends with the candidate, then progressive
left-to-right segment stripping with an exact retry at each step. -/
def find_function (function_name : String)
    (function_map : List (String × FunctionInfo)) : Option FunctionInfo :=
  match lookupAssoc function_map function_name with
  | some func => some func
  | none =>
    match function_map.find? (fun kv => strEndsWith kv.1 function_name) with
    | some kv => some kv.2
    | none => stripSearch (splitSep function_name) function_map

/-- Modelled from the spec's words (§4.3 NameResolver), to state the
refinement theorem for `find_function`: (1) exact key match; (2) the first
key in iteration order having the candidate as a suffix; (3) for
`i = 0, 1, …` (fewest segments removed first), exact match of the candidate
with its `i` leftmost segments removed. -/
def resolveSpec (candidate : String)
    (catalog : List (String × FunctionInfo)) : Option FunctionInfo :=
  (lookupAssoc catalog candidate).orElse (fun _ =>
    ((catalog.find? (fun kv => strEndsWith kv.1 candidate)).map (·.2)).orElse (fun _ =>
      (List.range (splitSep candidate).length).findSome?
        (fun i => lookupAssoc catalog (joinSep ((splitSep candidate).drop i)))))

/-- The scanning loop of `post_process_called_functions` (source lines
143–159) with the remembered qualifier (`stored_value`) made an explicit
argument. -/
def postProcessGo (stored : Option String) : List (String × Nat) → List (String × Nat)
  | [] => []
  | item :: rest =>
    match rfindSep item.1 with
    | some pos =>
      item :: postProcessGo (some (strTake item.1 pos)) rest
    | none =>
      match stored with
      | some q => (q ++ "::" ++ item.1, item.2) :: postProcessGo stored rest
      | none => item :: postProcessGo stored rest

/-- `post_process_called_functions` (source lines 143–159). -/
def post_process_called_functions (items : List (String × Nat)) : List (String × Nat) :=
  postProcessGo none items

/-- The qualifier a name contributes to the back-fill scan: the prefix up to
the last `"::"` when the name contains one. -/
def qualOf (s : String) : Option String := (rfindSep s).map (strTake s)

/-- The qualifier remembered after scanning `items`: the prefix (up to the
last `"::"`) of the most recent qualifier-bearing name. -/
def lastQualifier (items : List (String × Nat)) : Option String :=
  (items.filterMap (fun p => qualOf p.1)).getLast?

/-- First-occurrence deduplication of the observation vector: the model of
collecting it into a `HashSet` (source line 134; set iteration order is
unspecified in the source, the model fixes first-occurrence order). -/
def dedupObsAux (seen : List (String × Nat)) : List (String × Nat) → List (String × Nat)
  | [] => []
  | x :: rest => if x ∈ seen then dedupObsAux seen rest else x :: dedupObsAux (x :: seen) rest

/-- Deduplication of observations (source lines 134–135). -/
def dedupObs (l : List (String × Nat)) : List (String × Nat) := dedupObsAux [] l

/-- The comparison used by `sort_by_key(|item| item.1)` (ascending line
number; in the source tuple the line is field `1`). -/
def obsLe (a b : String × Nat) : Prop := a.2 ≤ b.2

instance : DecidableRel obsLe := fun a b => inferInstanceAs (Decidable (a.2 ≤ b.2))

instance : IsTotal (String × Nat) obsLe := ⟨fun a b => Nat.le_total a.2 b.2⟩

instance : IsTrans (String × Nat) obsLe := ⟨fun _ _ _ h1 h2 => Nat.le_trans h1 h2⟩

/-- `sort_by_key(|item| item.1)` (source line 136): a stable ascending sort by
line number, modelled by stable insertion sort. -/
def sortObs (l : List (String × Nat)) : List (String × Nat) := List.insertionSort obsLe l

mutual
/-- Model of the `syn` expression nodes that `visit_expr` (source lines
278–419) distinguishes. Source positions (`span().start().line`) are carried
on exactly the nodes whose spans the visitor reads: path expressions (read by
`visit_expr_call`) and method-name tokens (read by `visit_expr_method_call`).
A macro expression carries the external result of `mac.parse_body::<Expr>()`.
The `other` constructor stands for every further `syn::Expr` kind; the
generic `syn::visit::visit_expr` walk over such a node dispatches the
overridden visitor on its child expressions. -/
inductive RExpr : Type where
  | path (segs : List String) (line : Nat)
  | lit
  | call (func : RExpr) (args : RExprs)
  | methodCall (receiver : RExpr) (method : String) (line : Nat) (args : RExprs)
  | block (stmts : RStmts)
  | ifE (cond : RExpr) (thenBranch : RStmts) (elseBranch : RExprOpt)
  | matchE (scrutinee : RExpr) (armBodies : RExprs)
  | whileE (cond : RExpr) (body : RStmts)
  | forE (iterable : RExpr) (body : RStmts)
  | awaitE (base : RExpr)
  | tryE (inner : RExpr)
  | closure (body : RExpr)
  | ret (inner : RExprOpt)
  | assign (lhs rhs : RExpr)
  | unary (inner : RExpr)
  | binary (lhs rhs : RExpr)
  | fieldE (base : RExpr)
  | indexE (base index : RExpr)
  | tuple (elems : RExprs)
  | array (elems : RExprs)
  | structE (fieldValues : RExprs) (rest : RExprOpt)
  | paren (inner : RExpr)
  | macroE (parsedBody : RExprOpt)
  | repeatE (elem : RExpr)
  | group (inner : RExpr)
  | other (children : RExprs)

/-- A list of expressions (kept inside the mutual block so that the visitor
recursion stays structural). -/
inductive RExprs : Type where
  | nil
  | cons (head : RExpr) (tail : RExprs)

/-- An optional expression (`Option<Expr>` fields of `syn` nodes, and the
external result of `parse_body::<Expr>()` on a macro). -/
inductive RExprOpt : Type where
  | noneE
  | someE (e : RExpr)

/-- Model of `syn::Stmt`: a local binding, an expression statement, a nested
item (carrying the statements the generic item walk reaches), or a macro
statement (carrying the last segment of its path and the external result of
parsing its body as an expression). -/
inductive RStmt : Type where
  | localS (pat : RPat) (init : RExprOpt)
  | exprS (e : RExpr)
  | itemS (stmts : RStmts)
  | macroS (pathLastSegment : String) (parsedBody : RExprOpt)

/-- A list of statements. -/
inductive RStmts : Type where
  | nil
  | cons (head : RStmt) (tail : RStmts)

/-- Model of `syn::Pat` as far as `extract_variable_name` inspects it. -/
inductive RPat : Type where
  | identP (name : String)
  | otherP
end

/-- A parsed entry-point file, represented by the statement sequence that the
default `syn` file traversal dispatches on (top-level macros appear as
`RStmt.macroS`, other items as `RStmt.itemS`). -/
abbrev SynFile := RStmts

/-- The mutable state of `FuzzTargetVisitor` (source lines 162–167): the
collected `(name, line)` observations and the variable→type binding map
(`HashMap` modelled as a first-match list; insertion is cons). -/
structure VState where
  called_functions : List (String × Nat)
  variable_types : List (String × String)
deriving DecidableEq

/-- `FuzzTargetVisitor::lookup_function_return_type` (source lines 203–210):
resolve the name against the catalog and return its declared return type. -/
def lookup_function_return_type (function_info : List FunctionInfo)
    (method_name : String) : Option String :=
  let function_map := buildFunctionMap function_info
  (find_function method_name function_map).map (·.return_type)

/-- `FuzzTargetVisitor::extract_receiver_type` (source lines 179–200): a path
receiver looks up the binding of its last segment; a chained method call
recursively infers the inner receiver's type, forms `"Type::method"`, and
looks up that function's declared return type; every other receiver kind
yields no inference. -/
def extract_receiver_type (function_info : List FunctionInfo)
    (variable_types : List (String × String)) : RExpr → Option String
  | .path segs _ =>
    match segs.getLast? with
    | some variable_name => (variable_types.find? (fun kv => kv.1 == variable_name)).map (·.2)
    | none => none
  | .methodCall receiver method _ _ =>
    let receiver_type := extract_receiver_type function_info variable_types receiver
    let name :=
      match receiver_type with
      | some r => r ++ "::" ++ method
      | none => method
    lookup_function_return_type function_info name
  | _ => none

/-- `FuzzTargetVisitor::extract_variable_name` (source lines 213–219). -/
def extract_variable_name : RPat → Option String
  | .identP name => some name
  | .otherP => none

/-- `path_to_string` (source lines 423–429): join all path segments with
`"::"`. -/
def path_to_string (segs : List String) : String := joinSep segs

/-- `FuzzTargetVisitor::visit_local` (source lines 267–275): on a `let` with
an initializer, try receiver-type inference on the initializer and, on
success, bind the variable name to the inferred type. The overridden method
performs no further traversal of the initializer. -/
def visit_local (function_info : List FunctionInfo) (s : VState)
    (pat : RPat) (init : RExprOpt) : VState :=
  match init with
  | .someE init_expr =>
    match extract_variable_name pat with
    | some var_name =>
      match extract_receiver_type function_info s.variable_types init_expr with
      | some var_type => { s with variable_types := (var_name, var_type) :: s.variable_types }
      | none => s
    | none => s
  | .noneE => s

mutual
/-- `FuzzTargetVisitor::visit_expr` (source lines 278–419). The `call` case
inlines `visit_expr_call` (source lines 233–243): it records the dotted path
and the path's source line when the callee is a path expression, then visits
only the arguments. The `methodCall` case inlines `visit_expr_method_call`
(source lines 246–264): it records the method name qualified by the inferred
receiver type when available, then visits the receiver and the arguments. -/
def visit_expr (function_info : List FunctionInfo) (s : VState) : RExpr → VState
  | .call func args =>
    let s1 :=
      match func with
      | .path segs line =>
        { s with called_functions := s.called_functions ++ [(path_to_string segs, line)] }
      | _ => s
    visit_exprs function_info s1 args
  | .methodCall receiver method line args =>
    let receiver_type := extract_receiver_type function_info s.variable_types receiver
    let qualified_name :=
      match receiver_type with
      | some r => r ++ "::" ++ method
      | none => method
    let s1 := { s with called_functions := s.called_functions ++ [(qualified_name, line)] }
    let s2 := visit_expr function_info s1 receiver
    visit_exprs function_info s2 args
  | .block stmts => visit_block_custom function_info s stmts
  | .ifE cond thenB elseB =>
    let s1 := visit_expr function_info s cond
    let s2 := visit_block_default function_info s1 thenB
    visit_expr_opt function_info s2 elseB
  | .matchE scrut arms =>
    let s1 := visit_expr function_info s scrut
    visit_exprs function_info s1 arms
  | .whileE cond body =>
    let s1 := visit_expr function_info s cond
    visit_block_default function_info s1 body
  | .forE iter body =>
    let s1 := visit_expr function_info s iter
    visit_block_default function_info s1 body
  | .awaitE base => visit_expr function_info s base
  | .tryE inner => visit_expr function_info s inner
  | .closure body => visit_expr function_info s body
  | .ret inner => visit_expr_opt function_info s inner
  | .assign lhs rhs =>
    let s1 := visit_expr function_info s lhs
    visit_expr function_info s1 rhs
  | .unary inner => visit_expr function_info s inner
  | .binary lhs rhs =>
    let s1 := visit_expr function_info s lhs
    visit_expr function_info s1 rhs
  | .fieldE base => visit_expr function_info s base
  | .indexE base idx =>
    let s1 := visit_expr function_info s base
    visit_expr function_info s1 idx
  | .tuple elems => visit_exprs function_info s elems
  | .array elems => visit_exprs function_info s elems
  | .structE fields rest =>
    let s1 := visit_exprs function_info s fields
    visit_expr_opt function_info s1 rest
  | .paren inner => visit_expr function_info s inner
  | .macroE body => visit_expr_opt function_info s body
  | .repeatE elem => visit_expr function_info s elem
  | .group inner => visit_expr function_info s inner
  | .path _ _ => s
  | .lit => s
  | .other children => visit_exprs function_info s children

/-- Left-to-right visit of an expression list (`for arg in &node.args`-style
loops and the generic child walk). -/
def visit_exprs (function_info : List FunctionInfo) (s : VState) : RExprs → VState
  | .nil => s
  | .cons e rest =>
    let s1 := visit_expr function_info s e
    visit_exprs function_info s1 rest

/-- Visit of an optional expression (`if let Some(e) = … { visit }`). -/
def visit_expr_opt (function_info : List FunctionInfo) (s : VState) : RExprOpt → VState
  | .noneE => s
  | .someE e => visit_expr function_info s e

/-- The statement loop of the `Expr::Block` case of `visit_expr` (source
lines 288–308): a local's initializer is visited as an expression (with no
type binding), an expression statement is visited, a nested item is walked
with the generic `syn::visit::visit_item` traversal, and every other
statement kind (`Stmt::Macro`) is ignored. -/
def visit_block_custom (function_info : List FunctionInfo) (s : VState) : RStmts → VState
  | .nil => s
  | .cons stmt rest =>
    let s1 :=
      match stmt with
      | .localS _ init =>
        match init with
        | .someE e => visit_expr function_info s e
        | .noneE => s
      | .exprS e => visit_expr function_info s e
      | .itemS stmts => visit_block_default function_info s stmts
      | .macroS _ _ => s
    visit_block_custom function_info s1 rest

/-- The default `syn` traversal of a statement sequence (`visit_block` /
`visit_stmt`, reached from the `If`/`While`/`ForLoop` branches and from
nested items): locals go through the overridden `visit_local`, expression
statements through the overridden `visit_expr`, nested items through the
generic item walk, and macro statements through the overridden `visit_macro`
(source lines 224–230), which visits the parsed body only when the macro
path's last segment is `fuzz_target` and the body parses as an expression. -/
def visit_block_default (function_info : List FunctionInfo) (s : VState) : RStmts → VState
  | .nil => s
  | .cons stmt rest =>
    let s1 :=
      match stmt with
      | .localS pat init => visit_local function_info s pat init
      | .exprS e => visit_expr function_info s e
      | .itemS stmts => visit_block_default function_info s stmts
      | .macroS lastSeg body =>
        if lastSeg == "fuzz_target" then
          match body with
          | .someE e => visit_expr function_info s e
          | .noneE => s
        else s
    visit_block_default function_info s1 rest
end

/-- `visitor.visit_file(&syntax)` (source line 131): the default `syn` file
traversal, which dispatches the overridden visitor methods on every
statement, item, and macro of the file. -/
def visit_file (function_info : List FunctionInfo) (s : VState) (f : SynFile) : VState :=
  visit_block_default function_info s f

/-- `extract_called_functions` (source lines 123–140). The external
`syn::parse_file` result is an input: `none` models the parse failure, on
which the source panics (`expect`), aborting the whole run. -/
def extract_called_functions (parsed : Option SynFile)
    (function_info : List FunctionInfo) : Option (List (String × Nat)) :=
  match parsed with
  | none => none
  | some parsedFile =>
    let visitor := visit_file function_info ⟨[], []⟩ parsedFile
    some (post_process_called_functions (sortObs (dedupObs visitor.called_functions)))

/-- The `format!("{}{} {} linenumber={}\n", …)` of `build_call_tree` (source
lines 455–458 and 480–483): indentation of two spaces per depth level (depth
starting at 1 for children of the synthetic root), the name with spaces
stripped, the origin path, and the line number, ending in one newline. -/
def mkLine (depth : Nat) (name call_path : String) (line_number : Int) : String :=
  repeatStr "  " (depth + 1) ++ stripSpaces name ++ " " ++ call_path ++
    " linenumber=" ++ toString line_number ++ "\n"

mutual
/-- `build_call_tree` (source lines 432–490), with an explicit fuel parameter
making the recursion over the (possibly cyclic) catalog graph structural.
The mutated visited set is threaded through and returned alongside the
optional rendered output. -/
def build_call_tree : (fuel : Nat) → (function_name : String) →
    (function_map : List (String × FunctionInfo)) → (call_path : String) →
    (line_number : Int) → (visited : List String) → (depth : Nat) →
    Option String × List String
  | 0, _, _, _, _, visited, _ => (none, visited)
  | fuel + 1, function_name, function_map, call_path, line_number, visited, depth =>
    let line_number := if line_number = 0 then -1 else line_number
    match find_function function_name function_map with
    | some function_info =>
      if function_info.name ∈ visited then (none, visited)
      else
        let visited := function_info.name :: visited
        let head := mkLine depth function_info.name call_path line_number
        let res := build_callsites fuel function_info.callsites function_map visited depth
        let result := head ++ res.1
        (if result = "" then none else some result, res.2)
    | none =>
      let result := mkLine depth function_name call_path line_number
      (if result = "" then none else some result, visited)

/-- The callsite loop of `build_call_tree` (source lines 461–478): split each
origin on `','`, silently skip entries with fewer than two fields, parse the
line (`-1` on parse failure), recurse at `depth + 1`, and concatenate the
subtree outputs. Fuel is also consumed per list step, which only makes the
model conservative: every theorem quantifies over all fuel values. -/
def build_callsites : (fuel : Nat) → (callsites : List CallSite) →
    (function_map : List (String × FunctionInfo)) → (visited : List String) →
    (depth : Nat) → String × List String
  | 0, _, _, visited, _ => ("", visited)
  | _ + 1, [], _, visited, _ => ("", visited)
  | fuel + 1, callsite :: rest, function_map, visited, depth =>
    let call_location := splitComma callsite.src
    if call_location.length ≥ 2 then
      let callsite_path := call_location.headD ""
      let callsite_line := (parseI32 (call_location.getD 1 "")).getD (-1)
      let res := build_call_tree fuel callsite.dst function_map callsite_path
        callsite_line visited (depth + 1)
      let res2 := build_callsites fuel rest function_map res.2 depth
      (res.1.getD "" ++ res2.1, res2.2)
    else
      build_callsites fuel rest function_map visited depth
end

/-- One rendered call-tree line in structured form: the node's depth, the
name printed on the line (the catalog's canonical name when resolution
succeeded, the raw candidate otherwise), the origin path, the incoming line
number before the `0 → -1` normalization, and whether the candidate resolved
against the catalog. -/
structure TreeEntry where
  depth : Nat
  name : String
  path : String
  line : Int
  resolved : Bool
deriving DecidableEq

/-- The text of one rendered line: the `mkLine` format applied after the
`0 → -1` line-number normalization of `build_call_tree`. -/
def renderEntry (e : TreeEntry) : String :=
  mkLine e.depth e.name e.path (if e.line = 0 then -1 else e.line)

mutual
/-- Structured mirror of `build_call_tree`: the list of rendered lines in
order instead of the output string. -/
def build_call_tree_entries : (fuel : Nat) → (function_name : String) →
    (function_map : List (String × FunctionInfo)) → (call_path : String) →
    (line_number : Int) → (visited : List String) → (depth : Nat) →
    List TreeEntry × List String
  | 0, _, _, _, _, visited, _ => ([], visited)
  | fuel + 1, function_name, function_map, call_path, line_number, visited, depth =>
    match find_function function_name function_map with
    | some function_info =>
      if function_info.name ∈ visited then ([], visited)
      else
        let visited := function_info.name :: visited
        let res := build_callsites_entries fuel function_info.callsites function_map visited depth
        (⟨depth, function_info.name, call_path, line_number, true⟩ :: res.1, res.2)
    | none => ([⟨depth, function_name, call_path, line_number, false⟩], visited)

/-- Structured mirror of `build_callsites`. -/
def build_callsites_entries : (fuel : Nat) → (callsites : List CallSite) →
    (function_map : List (String × FunctionInfo)) → (visited : List String) →
    (depth : Nat) → List TreeEntry × List String
  | 0, _, _, visited, _ => ([], visited)
  | _ + 1, [], _, visited, _ => ([], visited)
  | fuel + 1, callsite :: rest, function_map, visited, depth =>
    let call_location := splitComma callsite.src
    if call_location.length ≥ 2 then
      let callsite_path := call_location.headD ""
      let callsite_line := (parseI32 (call_location.getD 1 "")).getD (-1)
      let res := build_call_tree_entries fuel callsite.dst function_map callsite_path
        callsite_line visited (depth + 1)
      let res2 := build_callsites_entries fuel rest function_map res.2 depth
      (res.1 ++ res2.1, res2.2)
    else
      build_callsites_entries fuel rest function_map visited depth
end

/-- The canonical names of the resolved entries among a rendered line list. -/
def resolvedNames (es : List TreeEntry) : List String :=
  (es.filter (·.resolved)).map (·.name)

/-- The per-harness rendering loop (source lines 56–68): one visited set is
shared across all of the entry point's top-level observations; each
observation's rendered tree, when present, is appended to the output. -/
def render_called (fuel : Nat) (called : List (String × Nat))
    (function_map : List (String × FunctionInfo)) (fuzz_file : String)
    (visited : List String) : String × List String :=
  match called with
  | [] => ("", visited)
  | (func_name, line_number) :: rest =>
    let res := build_call_tree fuel func_name function_map fuzz_file
      (usizeToI32 line_number) visited 0
    let res2 := render_called fuel rest function_map fuzz_file res.2
    (res.1.getD "" ++ res2.1, res2.2)

/-- Structured mirror of `render_called`. -/
def render_called_entries (fuel : Nat) (called : List (String × Nat))
    (function_map : List (String × FunctionInfo)) (fuzz_file : String)
    (visited : List String) : List TreeEntry × List String :=
  match called with
  | [] => ([], visited)
  | (func_name, line_number) :: rest =>
    let res := build_call_tree_entries fuel func_name function_map fuzz_file
      (usizeToI32 line_number) visited 0
    let res2 := render_called_entries fuel rest function_map fuzz_file res.2
    (res.1 ++ res2.1, res2.2)

mutual
/-- A file-system tree: a regular file carries its path, the result of
`Path::extension`, and its text; a directory carries its entries in
`read_dir` order. -/
inductive FSEntry : Type where
  | file (path : String) (ext : Option String) (content : String)
  | dir (entries : FSEntries)

/-- A directory listing. -/
inductive FSEntries : Type where
  | nil
  | cons (head : FSEntry) (tail : FSEntries)
end

mutual
/-- `find_fuzzing_harnesses` (source lines 106–120): depth-first collection
of every regular file whose extension is `rs` and whose raw text contains
the substring `fuzz_target!`; directories are entered unconditionally. -/
def find_fuzzing_harnesses : FSEntries → List String
  | .nil => []
  | .cons e rest => find_fuzzing_harnesses_entry e ++ find_fuzzing_harnesses rest

/-- The per-entry body of the `find_fuzzing_harnesses` loop. -/
def find_fuzzing_harnesses_entry : FSEntry → List String
  | .file path ext content =>
    if (ext == some "rs") && containsSub content "fuzz_target!" then [path] else []
  | .dir entries => find_fuzzing_harnesses entries
end

mutual
/-- Every regular file of the tree in depth-first order, as
(path, extension, content) triples. -/
def allFiles : FSEntries → List (String × Option String × String)
  | .nil => []
  | .cons e rest => allFilesEntry e ++ allFiles rest

/-- The files of one entry. -/
def allFilesEntry : FSEntry → List (String × Option String × String)
  | .file path ext content => [(path, ext, content)]
  | .dir entries => allFiles entries
end

mutual
/-- `fs::read_to_string`: the content of the first file of the tree bearing
the given path (`none` models the I/O error on a missing file). -/
def readFS : FSEntries → String → Option String
  | .nil, _ => none
  | .cons e rest, p =>
    match readFSEntry e p with
    | some c => some c
    | none => readFS rest p

/-- Read from one entry. -/
def readFSEntry : FSEntry → String → Option String
  | .file path _ content, p => if path == p then some content else none
  | .dir entries, p => readFS entries p
end

/-- `Path::file_stem` composed with `to_string_lossy` (source lines 39–42):
the portion of the final path component before its last dot (the whole
component when it has no dot, or only a leading one). -/
def file_stem (path : String) : String :=
  let base : List Char := (path.toList.reverse.takeWhile (· ≠ '/')).reverse
  let dots := (List.range base.length).filter
    (fun i => decide (base.getD i ' ' = '.') && decide (i ≠ 0))
  match dots.getLast? with
  | some i => ⟨base.take i⟩
  | none => ⟨base⟩

/-- The harness name: the file stem with underscores replaced by hyphens
(source line 43). -/
def hyphenate (s : String) : String :=
  ⟨s.toList.map (fun c => if c = '_' then '-' else c)⟩

/-- The synthesized per-harness catalog record (source lines 71–98): name
`fuzz_target`, file set to the harness path, called functions and callsites
derived one-to-one from the observation list, every other field zeroed. -/
def mkHarnessInfo (fuzz_file : String)
    (called_functions : List (String × Nat)) : FunctionInfo :=
  { name := "fuzz_target"
    file := fuzz_file
    return_type := ""
    arg_count := 0
    arg_names := []
    arg_types := []
    called_functions := called_functions.map (·.1)
    callsites := called_functions.map (fun p => { src := fuzz_file, dst := p.1 })
    start_line := 0
    end_line := 0 }

/-- The per-harness body of the loop of `generate_call_trees` (source lines
38–99): derive the output file name, write the header and the synthetic root
line, re-read and parse the harness (the external parser is the `parse`
argument; `none` models both the fatal parse panic and a fatal I/O error),
extract the observations, render every observation's tree with one fresh
shared visited set, and synthesize the harness record. The returned pair is
the written (file name, file content) and the record. -/
def process_harness (fuel : Nat) (parse : String → Option SynFile)
    (fs : FSEntries) (functions : List FunctionInfo)
    (function_map : List (String × FunctionInfo)) (fuzz_file : String) :
    Option ((String × String) × FunctionInfo) :=
  let harness_name := hyphenate (file_stem fuzz_file)
  let output_file := "fuzzerLogFile-" ++ harness_name ++ ".data"
  let header := "Call tree\n" ++ "fuzz_target " ++ fuzz_file ++ " linenumber=-1\n"
  match readFS fs fuzz_file with
  | none => none
  | some content =>
    match extract_called_functions (parse content) functions with
    | none => none
    | some called_functions =>
      let res := render_called fuel called_functions function_map fuzz_file []
      some ((output_file, header ++ res.1), mkHarnessInfo fuzz_file called_functions)

/-- The harness loop of `generate_call_trees`: process each discovered
harness in order; any failure aborts the whole run with no result. -/
def generate_go (fuel : Nat) (parse : String → Option SynFile) (fs : FSEntries)
    (functions : List FunctionInfo) (function_map : List (String × FunctionInfo)) :
    List String → Option (List (String × String) × List (String × FunctionInfo))
  | [] => some ([], [])
  | fuzz_file :: rest =>
    match process_harness fuel parse fs functions function_map fuzz_file with
    | none => none
    | some (out, info) =>
      match generate_go fuel parse fs functions function_map rest with
      | none => none
      | some (outs, infos) => some (out :: outs, (fuzz_file, info) :: infos)

/-- `generate_call_trees` (source lines 27–103): discover the harnesses,
build the name-keyed function map, process every harness (aborting the whole
run on any failure), and return the written files together with the harness
map (as the list of insertions, keyed by harness path). -/
def generate_call_trees (fuel : Nat) (parse : String → Option SynFile)
    (fs : FSEntries) (functions : List FunctionInfo) :
    Option (List (String × String) × List (String × FunctionInfo)) :=
  let fuzzing_files := find_fuzzing_harnesses fs
  let function_map := buildFunctionMap functions
  generate_go fuel parse fs functions function_map fuzzing_files

/-- The qualifier remembered after the back-fill scan passes over `xs`,
starting from `st`. -/
def storedAfter (st : Option String) : List (String × Nat) → Option String
  | [] => st
  | (n, _) :: rest =>
    match qualOf n with
    | some q => storedAfter (some q) rest
    | none => storedAfter st rest

/-- A parsed harness file whose trigger macro's argument did not parse as a
single valid expression (`parse_body` returned an error). -/
def invalidArgFile : SynFile := .cons (.macroS "fuzz_target" .noneE) .nil

/-- An external parser mapping the example harness text to `invalidArgFile`. -/
def invalidArgParse : String → Option SynFile :=
  fun s => if s == "fuzz_target!" then some invalidArgFile else none

/-- A file-system tree holding one harness file. -/
def oneHarnessFS : FSEntries := .cons (.file "h.rs" (some "rs") "fuzz_target!") .nil

/-- The entry-point body `{ Mod::bar(…); bar(…); }` with both calls on source
line 1. -/
def c6_body : RExpr := .block (.cons (.exprS (.call (.path ["Mod", "bar"] 1) .nil))
  (.cons (.exprS (.call (.path ["bar"] 1) .nil)) .nil))

/-- A parsed harness file whose trigger-macro body is `c6_body`. -/
def c6_file : SynFile := .cons (.macroS "fuzz_target" (.someE c6_body)) .nil

/-- The trigger-macro body `{ foo(data); }`, the call to `foo` sitting on
source line `L`. -/
def c2_body (L : Nat) : RExpr := .block (.cons (.exprS (.call (.path ["foo"] L)
  (.cons (.path ["data"] L) .nil))) .nil)

/-- A parsed harness file whose trigger-macro body is `c2_body L`. -/
def c2_file (L : Nat) : SynFile := .cons (.macroS "fuzz_target" (.someE (c2_body L))) .nil

/-- An external parser mapping the example harness text to `c2_file L`. -/
def c2_parse (L : Nat) : String → Option SynFile :=
  fun s => if s == "fuzz_target!" then some (c2_file L) else none

lemma concatStrs_append (l1 l2 : List String) :
    concatStrs (l1 ++ l2) = concatStrs l1 ++ concatStrs l2 := by
  induction l1 with
  | nil => simp [concatStrs]
  | cons s rest ih => simp [concatStrs, ih, String.append_assoc]

lemma repeatStr_length (s : String) : ∀ n, (repeatStr s n).length = s.length * n
  | 0 => rfl
  | n + 1 => by
    rw [repeatStr, String.length_append, repeatStr_length s n]
    ring

lemma mkLine_append_ne_empty (d : Nat) (n p : String) (ln : Int) (s : String) :
    mkLine d n p ln ++ s ≠ "" := by
  intro h
  have hlen := congrArg String.length h
  simp only [mkLine, String.length_append] at hlen
  have h1 : ("\n" : String).length = 1 := rfl
  have h0 : ("" : String).length = 0 := rfl
  omega

lemma mkLine_ne_empty (d : Nat) (n p : String) (ln : Int) : mkLine d n p ln ≠ "" := by
  have h := mkLine_append_ne_empty d n p ln ""
  intro hc
  exact h (by rw [hc]; rfl)

lemma resolvedNames_append (es1 es2 : List TreeEntry) :
    resolvedNames (es1 ++ es2) = resolvedNames es1 ++ resolvedNames es2 := by
  simp [resolvedNames]

lemma build_agree (fuel : Nat) :
    (∀ n fmap p ln v d,
      (build_call_tree fuel n fmap p ln v d).1 =
        (if (build_call_tree_entries fuel n fmap p ln v d).1 = [] then none
         else some (concatStrs ((build_call_tree_entries fuel n fmap p ln v d).1.map renderEntry))) ∧
      (build_call_tree fuel n fmap p ln v d).2 =
        (build_call_tree_entries fuel n fmap p ln v d).2) ∧
    (∀ cs fmap v d,
      (build_callsites fuel cs fmap v d).1 =
        concatStrs ((build_callsites_entries fuel cs fmap v d).1.map renderEntry) ∧
      (build_callsites fuel cs fmap v d).2 =
        (build_callsites_entries fuel cs fmap v d).2) := by
  induction fuel with
  | zero =>
    constructor
    · intro n fmap p ln v d
      simp [build_call_tree, build_call_tree_entries]
    · intro cs fmap v d
      simp [build_callsites, build_callsites_entries, concatStrs]
  | succ fuel ih =>
    obtain ⟨ihTree, ihList⟩ := ih
    constructor
    · intro n fmap p ln v d
      cases hf : find_function n fmap with
      | none =>
        rw [build_call_tree, build_call_tree_entries]
        simp only [hf]
        refine ⟨?_, by first | rfl | trivial⟩
        rw [if_neg (mkLine_ne_empty d n p (if ln = 0 then (-1 : Int) else ln))]
        rw [if_neg (show ¬([(⟨d, n, p, ln, false⟩ : TreeEntry)] = []) by simp)]
        simp [concatStrs, renderEntry]
      | some fi =>
        by_cases hv : fi.name ∈ v
        · rw [build_call_tree, build_call_tree_entries]
          simp [hf, hv]
        · rw [build_call_tree, build_call_tree_entries]
          simp only [hf, hv, ite_false, if_neg]
          obtain ⟨hl1, hl2⟩ := ihList fi.callsites fmap (fi.name :: v) d
          refine ⟨?_, hl2⟩
          rw [hl1]
          rw [if_neg (mkLine_append_ne_empty d fi.name p (if ln = 0 then (-1 : Int) else ln) _)]
          rw [if_neg (show ¬((⟨d, fi.name, p, ln, true⟩ : TreeEntry) ::
            (build_callsites_entries fuel fi.callsites fmap (fi.name :: v) d).1 = []) by simp)]
          simp [concatStrs, renderEntry, String.append_assoc]
    · intro cs fmap v d
      cases cs with
      | nil => simp [build_callsites, build_callsites_entries, concatStrs]
      | cons c rest =>
        rw [build_callsites, build_callsites_entries]
        by_cases hlen : (splitComma c.src).length ≥ 2
        · simp only [hlen, ite_true]
          obtain ⟨ht1, ht2⟩ := ihTree c.dst fmap ((splitComma c.src).headD "")
            ((parseI32 ((splitComma c.src).getD 1 "")).getD (-1)) v (d + 1)
          obtain ⟨hr1, hr2⟩ := ihList rest fmap
            (build_call_tree_entries fuel c.dst fmap ((splitComma c.src).headD "")
              ((parseI32 ((splitComma c.src).getD 1 "")).getD (-1)) v (d + 1)).2 d
          rw [ht2]
          refine ⟨?_, hr2⟩
          rw [ht1, hr1, List.map_append, concatStrs_append]
          by_cases he : (build_call_tree_entries fuel c.dst fmap ((splitComma c.src).headD "")
              ((parseI32 ((splitComma c.src).getD 1 "")).getD (-1)) v (d + 1)).1 = []
          · rw [if_pos he, he]
            rfl
          · rw [if_neg he]
            rfl
        · simp only [hlen, ite_false]
          exact ihList rest fmap v d

lemma resolvedNames_cons_true (d : Nat) (n p : String) (ln : Int) (l : List TreeEntry) :
    resolvedNames (⟨d, n, p, ln, true⟩ :: l) = n :: resolvedNames l := rfl

lemma resolvedNames_cons_false (d : Nat) (n p : String) (ln : Int) (l : List TreeEntry) :
    resolvedNames (⟨d, n, p, ln, false⟩ :: l) = resolvedNames l := rfl

lemma entries_invariant (fuel : Nat) :
    (∀ n fmap p ln v d,
      (build_call_tree_entries fuel n fmap p ln v d).2 =
        (resolvedNames (build_call_tree_entries fuel n fmap p ln v d).1).reverse ++ v ∧
      (resolvedNames (build_call_tree_entries fuel n fmap p ln v d).1).Nodup ∧
      ∀ x ∈ resolvedNames (build_call_tree_entries fuel n fmap p ln v d).1, x ∉ v) ∧
    (∀ cs fmap v d,
      (build_callsites_entries fuel cs fmap v d).2 =
        (resolvedNames (build_callsites_entries fuel cs fmap v d).1).reverse ++ v ∧
      (resolvedNames (build_callsites_entries fuel cs fmap v d).1).Nodup ∧
      ∀ x ∈ resolvedNames (build_callsites_entries fuel cs fmap v d).1, x ∉ v) := by
  induction fuel with
  | zero =>
    constructor
    · intro n fmap p ln v d
      simp [build_call_tree_entries, resolvedNames]
    · intro cs fmap v d
      simp [build_callsites_entries, resolvedNames]
  | succ fuel ih =>
    obtain ⟨ihTree, ihList⟩ := ih
    constructor
    · intro n fmap p ln v d
      cases hf : find_function n fmap with
      | none =>
        rw [build_call_tree_entries]
        simp [hf, resolvedNames]
      | some fi =>
        by_cases hv : fi.name ∈ v
        · rw [build_call_tree_entries]
          simp [hf, hv, resolvedNames]
        · rw [build_call_tree_entries]
          simp only [hf, hv, ite_false, if_neg, resolvedNames_cons_true]
          obtain ⟨h1, h2, h3⟩ := ihList fi.callsites fmap (fi.name :: v) d
          refine ⟨?_, ?_, ?_⟩
          · rw [h1, List.reverse_cons, List.append_assoc, List.singleton_append]
          · refine List.Nodup.cons ?_ h2
            intro hmem
            exact (h3 fi.name hmem) (List.mem_cons_self fi.name v)
          · intro x hx
            rcases List.mem_cons.mp hx with hx | hx
            · subst hx
              exact hv
            · intro hxv
              exact (h3 x hx) (List.mem_cons_of_mem _ hxv)
    · intro cs fmap v d
      cases cs with
      | nil => simp [build_callsites_entries, resolvedNames]
      | cons c rest =>
        rw [build_callsites_entries]
        by_cases hlen : (splitComma c.src).length ≥ 2
        · simp only [hlen, ite_true]
          obtain ⟨ht1, ht2, ht3⟩ := ihTree c.dst fmap ((splitComma c.src).headD "")
            ((parseI32 ((splitComma c.src).getD 1 "")).getD (-1)) v (d + 1)
          obtain ⟨hr1, hr2, hr3⟩ := ihList rest fmap
            (build_call_tree_entries fuel c.dst fmap ((splitComma c.src).headD "")
              ((parseI32 ((splitComma c.src).getD 1 "")).getD (-1)) v (d + 1)).2 d
          simp only [resolvedNames_append]
          have hdisj : ∀ x ∈ resolvedNames (build_callsites_entries fuel rest fmap
              (build_call_tree_entries fuel c.dst fmap ((splitComma c.src).headD "")
                ((parseI32 ((splitComma c.src).getD 1 "")).getD (-1)) v (d + 1)).2 d).1,
              x ∉ resolvedNames (build_call_tree_entries fuel c.dst fmap
                ((splitComma c.src).headD "")
                ((parseI32 ((splitComma c.src).getD 1 "")).getD (-1)) v (d + 1)).1 ∧ x ∉ v := by
            intro x hx
            have hnot := hr3 x hx
            rw [ht1] at hnot
            constructor
            · intro hmem
              exact hnot (List.mem_append_left _ (List.mem_reverse.mpr hmem))
            · intro hmem
              exact hnot (List.mem_append_right _ hmem)
          refine ⟨?_, ?_, ?_⟩
          · rw [hr1, ht1, List.reverse_append, List.append_assoc]
          · refine List.Nodup.append ht2 hr2 ?_
            intro x hx1 hx2
            exact (hdisj x hx2).1 hx1
          · intro x hx
            rcases List.mem_append.mp hx with hx | hx
            · exact ht3 x hx
            · exact (hdisj x hx).2
        · simp only [hlen, ite_false]
          exact ihList rest fmap v d

lemma render_entries_invariant (fuel : Nat) (fmap : List (String × FunctionInfo))
    (file : String) : ∀ (called : List (String × Nat)) (v : List String),
    (render_called_entries fuel called fmap file v).2 =
      (resolvedNames (render_called_entries fuel called fmap file v).1).reverse ++ v ∧
    (resolvedNames (render_called_entries fuel called fmap file v).1).Nodup ∧
    ∀ x ∈ resolvedNames (render_called_entries fuel called fmap file v).1, x ∉ v := by
  intro called
  induction called with
  | nil =>
    intro v
    simp [render_called_entries, resolvedNames]
  | cons ob rest ih =>
    intro v
    obtain ⟨ob1, ob2⟩ := ob
    rw [render_called_entries]
    obtain ⟨ht1, ht2, ht3⟩ := (entries_invariant fuel).1 ob1 fmap file (usizeToI32 ob2) v 0
    obtain ⟨hr1, hr2, hr3⟩ := ih
      (build_call_tree_entries fuel ob1 fmap file (usizeToI32 ob2) v 0).2
    simp only [resolvedNames_append]
    have hdisj : ∀ x ∈ resolvedNames (render_called_entries fuel rest fmap file
        (build_call_tree_entries fuel ob1 fmap file (usizeToI32 ob2) v 0).2).1,
        x ∉ resolvedNames (build_call_tree_entries fuel ob1 fmap file (usizeToI32 ob2) v 0).1 ∧
        x ∉ v := by
      intro x hx
      have hnot := hr3 x hx
      rw [ht1] at hnot
      constructor
      · intro hmem
        exact hnot (List.mem_append_left _ (List.mem_reverse.mpr hmem))
      · intro hmem
        exact hnot (List.mem_append_right _ hmem)
    refine ⟨?_, ?_, ?_⟩
    · rw [hr1, ht1, List.reverse_append, List.append_assoc]
    · refine List.Nodup.append ht2 hr2 ?_
      intro x hx1 hx2
      exact (hdisj x hx2).1 hx1
    · intro x hx
      rcases List.mem_append.mp hx with hx | hx
      · exact ht3 x hx
      · exact (hdisj x hx).2

lemma render_agree (fuel : Nat) (fmap : List (String × FunctionInfo)) (file : String) :
    ∀ (called : List (String × Nat)) (v : List String),
    (render_called fuel called fmap file v).1 =
      concatStrs ((render_called_entries fuel called fmap file v).1.map renderEntry) ∧
    (render_called fuel called fmap file v).2 =
      (render_called_entries fuel called fmap file v).2 := by
  intro called
  induction called with
  | nil =>
    intro v
    simp [render_called, render_called_entries, concatStrs]
  | cons ob rest ih =>
    intro v
    obtain ⟨ob1, ob2⟩ := ob
    rw [render_called, render_called_entries]
    obtain ⟨ht1, ht2⟩ := ((build_agree fuel).1 ob1 fmap file (usizeToI32 ob2) v 0)
    obtain ⟨hr1, hr2⟩ := ih (build_call_tree_entries fuel ob1 fmap file (usizeToI32 ob2) v 0).2
    rw [ht2]
    refine ⟨?_, hr2⟩
    rw [ht1, hr1, List.map_append, concatStrs_append]
    by_cases he : (build_call_tree_entries fuel ob1 fmap file (usizeToI32 ob2) v 0).1 = []
    · rw [if_pos he, he]
      rfl
    · rw [if_neg he]
      rfl

lemma stripSearch_eq (m : List (String × FunctionInfo)) :
    ∀ segs : List String, stripSearch segs m =
      (List.range segs.length).findSome? (fun i => lookupAssoc m (joinSep (segs.drop i))) := by
  intro segs
  induction segs with
  | nil => rfl
  | cons s rest ih =>
    rw [stripSearch, List.length_cons, List.range_succ_eq_map, List.findSome?_cons]
    cases h0 : lookupAssoc m (joinSep (s :: rest)) with
    | some f => simp [List.drop_zero, h0]
    | none =>
      simp only [List.drop_zero, h0]
      rw [List.findSome?_map, ih]
      rfl

/-- C3: given a candidate name and the catalog, resolution tries, in order,
exact key match, then the first catalog key in iteration order that ends with
the candidate, then exact match after stripping the leftmost `i` segments for
`i = 0, 1, …` (fewest removed first); it fails exactly when all three fail
(equality with the three-stage spec-level resolver), and a candidate that is
itself a key of the catalog resolves to that key's record. -/
theorem c3_resolution_order (function_name : String)
    (function_map : List (String × FunctionInfo)) :
    find_function function_name function_map = resolveSpec function_name function_map ∧
    (∀ fi, lookupAssoc function_map function_name = some fi →
      find_function function_name function_map = some fi) := by
  constructor
  · rw [find_function, resolveSpec]
    cases hl : lookupAssoc function_map function_name with
    | some f => rfl
    | none =>
      cases hs : function_map.find? (fun kv => strEndsWith kv.1 function_name) with
      | some kv => rfl
      | none =>
        show stripSearch (splitSep function_name) function_map = _
        rw [stripSearch_eq]
        rfl
  · intro fi h
    rw [find_function, h]

/-- Witness for C3 at a concrete catalog: the candidate `a::f` is a key, so
resolution returns that key's record. -/
theorem c3_resolution_order_witness :
    find_function "a::f" [("a::f", ⟨"a::f", "x.rs", "T", 0, [], [], [], [], 0, 0⟩)] =
      some ⟨"a::f", "x.rs", "T", 0, [], [], [], [], 0, 0⟩ :=
  (c3_resolution_order "a::f" [("a::f", ⟨"a::f", "x.rs", "T", 0, [], [], [], [], 0, 0⟩)]).2
    ⟨"a::f", "x.rs", "T", 0, [], [], [], [], 0, 0⟩ (by decide)

lemma postProcessGo_append (ys : List (String × Nat)) :
    ∀ (xs : List (String × Nat)) (st : Option String),
      postProcessGo st (xs ++ ys) = postProcessGo st xs ++ postProcessGo (storedAfter st xs) ys := by
  intro xs
  induction xs with
  | nil => intro st; rfl
  | cons x rest ih =>
    intro st
    obtain ⟨n, l⟩ := x
    rw [List.cons_append]
    simp only [postProcessGo, storedAfter]
    cases hq : rfindSep n with
    | some pos =>
      have hq' : qualOf n = some (strTake n pos) := by rw [qualOf, hq]; rfl
      simp only [hq']
      rw [ih (some (strTake n pos)), List.cons_append]
    | none =>
      have hq' : qualOf n = none := by rw [qualOf, hq]; rfl
      simp only [hq']
      cases st with
      | some q => rw [ih (some q), List.cons_append]
      | none => rw [ih none, List.cons_append]

lemma getLast?_cons_orElse (a : String) (l : List String) :
    (a :: l).getLast? = (l.getLast?.orElse fun _ => some a) := by
  cases l with
  | nil => rfl
  | cons b rest =>
    rw [List.getLast?_cons_cons]
    cases hb : (b :: rest).getLast? with
    | some q => rfl
    | none =>
      exfalso
      have := List.getLast?_isSome.mpr (show (b :: rest) ≠ [] by simp)
      rw [hb] at this
      exact Bool.noConfusion this

lemma storedAfter_eq (xs : List (String × Nat)) : ∀ st,
    storedAfter st xs = ((xs.filterMap (fun p => qualOf p.1)).getLast?.orElse fun _ => st) := by
  induction xs with
  | nil => intro st; rfl
  | cons x rest ih =>
    intro st
    obtain ⟨n, l⟩ := x
    rw [storedAfter]
    cases hq : qualOf n with
    | some q =>
      simp only [List.filterMap_cons, hq]
      rw [ih (some q), getLast?_cons_orElse]
      cases hg : (List.filterMap (fun p => qualOf p.1) rest).getLast? <;> rfl
    | none =>
      simp only [List.filterMap_cons, hq]
      exact ih st

lemma storedAfter_none_eq (xs : List (String × Nat)) :
    storedAfter none xs = lastQualifier xs := by
  rw [storedAfter_eq, lastQualifier]
  cases (xs.filterMap (fun p => qualOf p.1)).getLast? <;> rfl

/-- C4: the back-fill pass scans in line order remembering the most recent
name containing `"::"` (as its prefix up to the last `"::"`), rewrites each
later separator-free name by prefixing the remembered qualifier, leaves
names before any qualifier-bearing name unqualified, and maps the spec's
example `[("Mod::foo", 3), ("bar", 7)]` to `[("Mod::foo", 3), ("Mod::bar", 7)]`. -/
theorem c4_backfill :
    (∀ (items : List (String × Nat)) (n : String) (l : Nat),
      post_process_called_functions (items ++ [(n, l)]) =
        post_process_called_functions items ++
          [((match qualOf n, lastQualifier items with
             | some _, _ => n
             | none, some q => q ++ "::" ++ n
             | none, none => n), l)]) ∧
    (∀ items : List (String × Nat), (∀ p ∈ items, qualOf p.1 = none) →
      post_process_called_functions items = items) ∧
    post_process_called_functions [("Mod::foo", 3), ("bar", 7)] =
      [("Mod::foo", 3), ("Mod::bar", 7)] := by
  refine ⟨?_, ?_, by decide⟩
  · intro items n l
    rw [post_process_called_functions, post_process_called_functions,
      postProcessGo_append [(n, l)] items none, storedAfter_none_eq]
    congr 1
    simp only [postProcessGo]
    cases hq : rfindSep n with
    | some pos =>
      have hq' : qualOf n = some (strTake n pos) := by rw [qualOf, hq]; rfl
      simp [hq, hq']
    | none =>
      have hq' : qualOf n = none := by rw [qualOf, hq]; rfl
      simp only [hq, hq']
      cases hlq : lastQualifier items with
      | some q => rfl
      | none => rfl
  · intro items h
    rw [post_process_called_functions]
    induction items with
    | nil => rfl
    | cons x rest ih =>
      obtain ⟨n, l⟩ := x
      have hn : qualOf n = none := h (n, l) (List.mem_cons_self _ _)
      have hn' : rfindSep n = none := by
        rw [qualOf] at hn
        exact Option.map_eq_none'.mp hn
      simp only [postProcessGo, hn']
      rw [ih (fun p hp => h p (List.mem_cons_of_mem _ hp))]

/-- Witness for C4 at a concrete input: a list with no qualifier-bearing name
passes through the back-fill unchanged. -/
theorem c4_backfill_witness :
    post_process_called_functions [("alpha", 4), ("beta", 9)] = [("alpha", 4), ("beta", 9)] :=
  c4_backfill.2.1 [("alpha", 4), ("beta", 9)] (by decide)

mutual
lemma harness_mem_entries (fs : FSEntries) (p : String) :
    p ∈ find_fuzzing_harnesses fs ↔
      ∃ e ∈ allFiles fs, e.1 = p ∧ e.2.1 = some "rs" ∧
        containsSub e.2.2 "fuzz_target!" = true := by
  cases fs with
  | nil => simp [find_fuzzing_harnesses, allFiles]
  | cons e rest =>
    rw [find_fuzzing_harnesses, allFiles]
    rw [List.mem_append]
    constructor
    · intro h
      rcases h with h | h
      · obtain ⟨x, hx, hprop⟩ := (harness_mem_entry e p).mp h
        exact ⟨x, List.mem_append_left _ hx, hprop⟩
      · obtain ⟨x, hx, hprop⟩ := (harness_mem_entries rest p).mp h
        exact ⟨x, List.mem_append_right _ hx, hprop⟩
    · intro h
      obtain ⟨x, hx, hprop⟩ := h
      rcases List.mem_append.mp hx with hx | hx
      · exact Or.inl ((harness_mem_entry e p).mpr ⟨x, hx, hprop⟩)
      · exact Or.inr ((harness_mem_entries rest p).mpr ⟨x, hx, hprop⟩)

lemma harness_mem_entry (e : FSEntry) (p : String) :
    p ∈ find_fuzzing_harnesses_entry e ↔
      ∃ x ∈ allFilesEntry e, x.1 = p ∧ x.2.1 = some "rs" ∧
        containsSub x.2.2 "fuzz_target!" = true := by
  cases e with
  | file path ext content =>
    rw [find_fuzzing_harnesses_entry, allFilesEntry]
    by_cases hc : ((ext == some "rs") && containsSub content "fuzz_target!") = true
    · rw [if_pos hc]
      obtain ⟨h1, h2⟩ := Bool.and_eq_true_iff.mp hc
      constructor
      · intro h
        rw [List.mem_singleton] at h
        subst h
        exact ⟨(p, ext, content), List.mem_singleton_self _, rfl, eq_of_beq h1, h2⟩
      · rintro ⟨x, hx, hxp, hxe, hxc⟩
        rw [List.mem_singleton] at hx
        subst hx
        dsimp only at hxp
        rw [List.mem_singleton]
        exact hxp.symm
    · rw [if_neg hc]
      constructor
      · intro h
        exact absurd h (List.not_mem_nil p)
      · rintro ⟨x, hx, hxp, hxe, hxc⟩
        rw [List.mem_singleton] at hx
        subst hx
        dsimp only at hxe hxc
        exact absurd (by rw [hxe, hxc]; rfl) hc
  | dir entries =>
    rw [find_fuzzing_harnesses_entry, allFilesEntry]
    exact harness_mem_entries entries p
end

/-- C8: entry-point discovery returns, at any nesting depth, exactly the
regular files whose extension is `rs` and whose raw text contains the
trigger token `fuzz_target!`; a file without the token is never selected. -/
theorem c8_discovery (fs : FSEntries) (p : String) :
    p ∈ find_fuzzing_harnesses fs ↔
      ∃ e ∈ allFiles fs, e.1 = p ∧ e.2.1 = some "rs" ∧
        containsSub e.2.2 "fuzz_target!" = true :=
  harness_mem_entries fs p

/-- C10: a candidate that fails to resolve never changes the visited set (so
unresolved names are never marked visited); every name the visited set gains
is the canonical name of a resolved entry; and at a concrete empty catalog
the same unresolved name `x` is rendered as a leaf line twice within one
entry point's output. -/
theorem c10_unresolved_leaves (fuel : Nat) (fmap : List (String × FunctionInfo)) :
    (∀ n p ln v d, find_function n fmap = none →
      (build_call_tree fuel n fmap p ln v d).2 = v) ∧
    (∀ n p ln v d,
      (build_call_tree_entries fuel n fmap p ln v d).2 =
        (resolvedNames (build_call_tree_entries fuel n fmap p ln v d).1).reverse ++ v) ∧
    ((render_called 3 [("x", 1), ("x", 2)] [] "h.rs" []).1 =
      "  x h.rs linenumber=1\n" ++ "  x h.rs linenumber=2\n" ∧
      (render_called_entries 3 [("x", 1), ("x", 2)] [] "h.rs" []).1.map
        (fun e => (e.name, e.resolved)) = [("x", false), ("x", false)]) := by
  refine ⟨?_, ?_, by decide, by decide⟩
  · intro n p ln v d hf
    cases fuel with
    | zero => rw [build_call_tree]
    | succ fuel =>
      rw [build_call_tree]
      simp [hf]
  · intro n p ln v d
    exact ((entries_invariant fuel).1 n fmap p ln v d).1

/-- Witness for C10 at a concrete input: an unresolved candidate leaves the
visited set unchanged. -/
theorem c10_unresolved_leaves_witness :
    (build_call_tree 2 "zz" [] "p.rs" 5 ["w"] 0).2 = ["w"] :=
  (c10_unresolved_leaves 2 []).1 "zz" "p.rs" 5 ["w"] 0 (by decide)

lemma process_harness_fail (fuel : Nat) (parse : String → Option SynFile)
    (fs : FSEntries) (functions : List FunctionInfo)
    (fmap : List (String × FunctionInfo)) (p : String)
    (h : (readFS fs p).bind parse = none) :
    process_harness fuel parse fs functions fmap p = none := by
  cases hr : readFS fs p with
  | none => simp only [process_harness, hr]
  | some c =>
    rw [hr, Option.some_bind] at h
    simp only [process_harness, hr, h, extract_called_functions]

lemma generate_go_fail (fuel : Nat) (parse : String → Option SynFile)
    (fs : FSEntries) (functions : List FunctionInfo)
    (fmap : List (String × FunctionInfo)) :
    ∀ (files : List String) (p : String), p ∈ files →
      process_harness fuel parse fs functions fmap p = none →
      generate_go fuel parse fs functions fmap files = none := by
  intro files
  induction files with
  | nil =>
    intro p hp _
    exact absurd hp (List.not_mem_nil p)
  | cons q rest ih =>
    intro p hp hfail
    rcases List.mem_cons.mp hp with h | h
    · rw [h] at hfail
      simp only [generate_go, hfail]
    · cases hq : process_harness fuel parse fs functions fmap q with
      | none => simp only [generate_go, hq]
      | some pr =>
        obtain ⟨out, info⟩ := pr
        simp only [generate_go, hq, ih p h hfail]

lemma process_harness_some (fuel : Nat) (parse : String → Option SynFile)
    (fs : FSEntries) (functions : List FunctionInfo)
    (fmap : List (String × FunctionInfo)) (p : String)
    (h : ((readFS fs p).bind parse).isSome = true) :
    (process_harness fuel parse fs functions fmap p).isSome = true := by
  cases hr : readFS fs p with
  | none =>
    rw [hr] at h
    exact absurd h (by simp)
  | some c =>
    rw [hr, Option.some_bind] at h
    cases hp : parse c with
    | none =>
      rw [hp] at h
      exact absurd h (by simp)
    | some f =>
      simp only [process_harness, hr, hp, extract_called_functions, Option.isSome_some]

lemma generate_go_some (fuel : Nat) (parse : String → Option SynFile)
    (fs : FSEntries) (functions : List FunctionInfo)
    (fmap : List (String × FunctionInfo)) :
    ∀ files : List String,
      (∀ p ∈ files, ((readFS fs p).bind parse).isSome = true) →
      (generate_go fuel parse fs functions fmap files).isSome = true := by
  intro files
  induction files with
  | nil =>
    intro _
    rfl
  | cons q rest ih =>
    intro h
    have hq := process_harness_some fuel parse fs functions fmap q
      (h q (List.mem_cons_self q rest))
    cases hpq : process_harness fuel parse fs functions fmap q with
    | none =>
      rw [hpq] at hq
      exact absurd hq (by simp)
    | some pr =>
      obtain ⟨out, info⟩ := pr
      have hr := ih (fun p hp => h p (List.mem_cons_of_mem q hp))
      cases hgr : generate_go fuel parse fs functions fmap rest with
      | none =>
        rw [hgr] at hr
        exact absurd hr (by simp)
      | some pair =>
        obtain ⟨outs, infos⟩ := pair
        simp only [generate_go, hpq, hgr, Option.isSome_some]

/-- C5 (amended): an entry-point file whose text fails to be read or to parse
aborts the whole run — the failure propagates with no per-entry-point
isolation and no harness map is returned; however, a trigger macro whose
argument is not a single valid expression is silently skipped (its body is
never visited), and a run all of whose harnesses read and parse returns a
harness map. -/
theorem c5_parse_failure_aborts (fuel : Nat) (parse : String → Option SynFile)
    (fs : FSEntries) (functions : List FunctionInfo) :
    (∀ p ∈ find_fuzzing_harnesses fs, (readFS fs p).bind parse = none →
      generate_call_trees fuel parse fs functions = none) ∧
    (∀ (s : VState) (lastSeg : String) (rest : RStmts),
      visit_block_default functions s (.cons (.macroS lastSeg .noneE) rest) =
        visit_block_default functions s rest) ∧
    ((∀ p ∈ find_fuzzing_harnesses fs, ((readFS fs p).bind parse).isSome = true) →
      (generate_call_trees fuel parse fs functions).isSome = true) := by
  refine ⟨?_, ?_, ?_⟩
  · intro p hp hfail
    rw [generate_call_trees]
    exact generate_go_fail fuel parse fs functions (buildFunctionMap functions)
      (find_fuzzing_harnesses fs) p hp
      (process_harness_fail fuel parse fs functions (buildFunctionMap functions) p hfail)
  · intro s lastSeg rest
    simp only [visit_block_default]
    cases h : lastSeg == "fuzz_target" with
    | true => rw [ite_self]
    | false => rw [ite_self]
  · intro h
    rw [generate_call_trees]
    exact generate_go_some fuel parse fs functions (buildFunctionMap functions)
      (find_fuzzing_harnesses fs) h

/-- Witness for C5 at a concrete input: a parser that fails on the harness
text makes the whole run return nothing. -/
theorem c5_parse_failure_aborts_witness :
    generate_call_trees 2 (fun _ => none) oneHarnessFS [] = none :=
  (c5_parse_failure_aborts 2 (fun _ => none) oneHarnessFS []).1 "h.rs" (by decide) rfl

/-- C5 counterexample: the claim says a trigger macro whose argument is not a
single valid expression aborts the run with no harness map; on this concrete
run the only harness's macro argument fails to parse, yet the run completes
and returns a harness map (with an empty observation list). -/
theorem c5_invalid_macro_arg_run_continues :
    generate_call_trees 3 invalidArgParse oneHarnessFS [] =
      some ([("fuzzerLogFile-h.data", "Call tree\nfuzz_target h.rs linenumber=-1\n")],
        [("h.rs", mkHarnessInfo "h.rs" [])]) := by
  decide

lemma process_harness_inv (fuel : Nat) (parse : String → Option SynFile)
    (fs : FSEntries) (functions : List FunctionInfo)
    (fmap : List (String × FunctionInfo)) (p : String)
    (out : String × String) (info : FunctionInfo)
    (h : process_harness fuel parse fs functions fmap p = some (out, info)) :
    ∃ content called, readFS fs p = some content ∧
      extract_called_functions (parse content) functions = some called ∧
      info = mkHarnessInfo p called := by
  cases hr : readFS fs p with
  | none =>
    simp only [process_harness, hr] at h
    exact absurd h (by simp)
  | some c =>
    cases he : extract_called_functions (parse c) functions with
    | none =>
      simp only [process_harness, hr, he] at h
      exact absurd h (by simp)
    | some called =>
      simp only [process_harness, hr, he, Option.some.injEq] at h
      exact ⟨c, called, rfl, he, (congrArg Prod.snd h).symm⟩

lemma generate_go_sound (fuel : Nat) (parse : String → Option SynFile)
    (fs : FSEntries) (functions : List FunctionInfo)
    (fmap : List (String × FunctionInfo)) :
    ∀ (files : List String) (outs : List (String × String))
      (infos : List (String × FunctionInfo)),
      generate_go fuel parse fs functions fmap files = some (outs, infos) →
      ∀ pr ∈ infos, ∃ content called,
        readFS fs pr.1 = some content ∧
        extract_called_functions (parse content) functions = some called ∧
        pr.2 = mkHarnessInfo pr.1 called := by
  intro files
  induction files with
  | nil =>
    intro outs infos h pr hpr
    rw [generate_go] at h
    have h2 : ([] : List (String × FunctionInfo)) = infos :=
      congrArg Prod.snd (Option.some.inj h)
    rw [← h2] at hpr
    exact absurd hpr (List.not_mem_nil pr)
  | cons q rest ih =>
    intro outs infos h pr hpr
    cases hpq : process_harness fuel parse fs functions fmap q with
    | none =>
      simp only [generate_go, hpq] at h
      exact absurd h (by simp)
    | some pri =>
      obtain ⟨out, info⟩ := pri
      cases hgr : generate_go fuel parse fs functions fmap rest with
      | none =>
        simp only [generate_go, hpq, hgr] at h
        exact absurd h (by simp)
      | some pair =>
        obtain ⟨outs2, infos2⟩ := pair
        simp only [generate_go, hpq, hgr, Option.some.injEq] at h
        have hinfos : (q, info) :: infos2 = infos := congrArg Prod.snd h
        rw [← hinfos] at hpr
        rcases List.mem_cons.mp hpr with hh | hh
        · rw [hh]
          obtain ⟨content, called, hc1, hc2, hc3⟩ :=
            process_harness_inv fuel parse fs functions fmap q out info hpq
          exact ⟨content, called, hc1, hc2, hc3⟩
        · exact ih outs2 infos2 hgr pr hh

/-- C9: every entry of the returned harness map keys an entry-point path to a
synthesized record whose name is the trigger identifier `fuzz_target`, whose
file is the entry-point path, and whose call edges are derived one-to-one, in
order, from the entry point's post-processed observation list — each edge's
destination being the observation's name (and the edge's source the harness
path). -/
theorem c9_harness_map (fuel : Nat) (parse : String → Option SynFile)
    (fs : FSEntries) (functions : List FunctionInfo)
    (outs : List (String × String)) (infos : List (String × FunctionInfo))
    (hgen : generate_call_trees fuel parse fs functions = some (outs, infos)) :
    ∀ pr ∈ infos, ∃ called,
      (∃ content, readFS fs pr.1 = some content ∧
        extract_called_functions (parse content) functions = some called) ∧
      pr.2.name = "fuzz_target" ∧
      pr.2.file = pr.1 ∧
      pr.2.called_functions = called.map (·.1) ∧
      pr.2.callsites = called.map (fun ob => { src := pr.1, dst := ob.1 }) := by
  intro pr hpr
  rw [generate_call_trees] at hgen
  obtain ⟨content, called, h1, h2, h3⟩ :=
    generate_go_sound fuel parse fs functions (buildFunctionMap functions)
      (find_fuzzing_harnesses fs) outs infos hgen pr hpr
  refine ⟨called, ⟨content, h1, h2⟩, ?_, ?_, ?_, ?_⟩ <;> rw [h3] <;> rfl

/-- Witness for C9 at a concrete run: the single harness map entry carries
name `fuzz_target`, the harness path as file, and edges from the (here
empty) observation list. -/
theorem c9_harness_map_witness :
    ∃ called,
      (∃ content, readFS oneHarnessFS "h.rs" = some content ∧
        extract_called_functions (invalidArgParse content) [] = some called) ∧
      (mkHarnessInfo "h.rs" []).name = "fuzz_target" ∧
      (mkHarnessInfo "h.rs" []).file = "h.rs" ∧
      (mkHarnessInfo "h.rs" []).called_functions = called.map (·.1) ∧
      (mkHarnessInfo "h.rs" []).callsites =
        called.map (fun ob => { src := "h.rs", dst := ob.1 }) :=
  c9_harness_map 3 invalidArgParse oneHarnessFS []
    [("fuzzerLogFile-h.data", "Call tree\nfuzz_target h.rs linenumber=-1\n")]
    [("h.rs", mkHarnessInfo "h.rs" [])] (by decide)
    ("h.rs", mkHarnessInfo "h.rs" []) (by simp)

/-- C1: within one entry point's single rendered output — all top-level
observations rendered through one shared visited set starting empty — each
resolved catalog function's canonical name appears on at most one rendered
line (the rendered lines' resolved names are pairwise distinct); a candidate
resolving to an already-visited canonical name renders no output at all and
leaves the visited set unchanged (the later occurrence's subtree is pruned);
and the rendered string is exactly the concatenation of the rendered lines. -/
theorem c1_resolved_at_most_once (fuel : Nat) (fmap : List (String × FunctionInfo))
    (file : String) (called : List (String × Nat)) :
    (resolvedNames (render_called_entries fuel called fmap file []).1).Nodup ∧
    (∀ n fi p ln v d, find_function n fmap = some fi → fi.name ∈ v →
      build_call_tree fuel n fmap p ln v d = (none, v)) ∧
    (render_called fuel called fmap file []).1 =
      concatStrs ((render_called_entries fuel called fmap file []).1.map renderEntry) := by
  refine ⟨(render_entries_invariant fuel fmap file called []).2.1, ?_,
    (render_agree fuel fmap file called []).1⟩
  intro n fi p ln v d hf hv
  cases fuel with
  | zero => rw [build_call_tree]
  | succ fuel =>
    rw [build_call_tree]
    simp [hf, hv]

/-- Witness for C1 at a concrete input: the candidate `f` resolves to the
already-visited canonical name `f`, so its render is pruned to nothing. -/
theorem c1_resolved_at_most_once_witness :
    build_call_tree 3 "f" [("f", ⟨"f", "", "", 0, [], [], [], [], 0, 0⟩)] "p.rs" 7 ["f"] 0 =
      (none, ["f"]) :=
  (c1_resolved_at_most_once 3 [("f", ⟨"f", "", "", 0, [], [], [], [], 0, 0⟩)] "p.rs" []).2.1
    "f" ⟨"f", "", "", 0, [], [], [], [], 0, 0⟩ "p.rs" 7 ["f"] 0 (by decide) (by decide)

/-- C7: the rendered output of `build_call_tree` is exactly the concatenation
of one `mkLine` per rendered node — two spaces of indentation per depth level
(depth starting at 1 for children of the synthetic root), the name with
whitespace stripped, a space, the origin path, ` linenumber=<n>`, and one
newline — where an incoming line number of 0 is normalized to the sentinel
-1 before formatting and every other value passes through unchanged. -/
theorem c7_line_format (fuel : Nat) (n : String) (fmap : List (String × FunctionInfo))
    (p : String) (ln : Int) (v : List String) (d : Nat) :
    (build_call_tree fuel n fmap p ln v d).1 =
      (if (build_call_tree_entries fuel n fmap p ln v d).1 = [] then none
       else some (concatStrs ((build_call_tree_entries fuel n fmap p ln v d).1.map
         (fun e => mkLine e.depth e.name e.path (if e.line = 0 then -1 else e.line))))) ∧
    (build_call_tree fuel n fmap p ln v d).2 =
      (build_call_tree_entries fuel n fmap p ln v d).2 :=
  (build_agree fuel).1 n fmap p ln v d

lemma dedupObsAux_nodup (l : List (String × Nat)) : ∀ seen,
    (dedupObsAux seen l).Nodup ∧ ∀ x ∈ dedupObsAux seen l, x ∉ seen := by
  induction l with
  | nil =>
    intro seen
    exact ⟨List.nodup_nil, by simp [dedupObsAux]⟩
  | cons x rest ih =>
    intro seen
    rw [dedupObsAux]
    by_cases hx : x ∈ seen
    · rw [if_pos hx]
      exact ih seen
    · rw [if_neg hx]
      obtain ⟨ih1, ih2⟩ := ih (x :: seen)
      refine ⟨List.Nodup.cons ?_ ih1, ?_⟩
      · intro hmem
        exact (ih2 x hmem) (List.mem_cons_self x seen)
      · intro y hy
        rcases List.mem_cons.mp hy with h | h
        · rw [h]
          exact hx
        · intro hyseen
          exact (ih2 y h) (List.mem_cons_of_mem x hyseen)

lemma dedupObs_nodup (l : List (String × Nat)) : (dedupObs l).Nodup :=
  (dedupObsAux_nodup l []).1

lemma sortObs_nodup (l : List (String × Nat)) (h : l.Nodup) : (sortObs l).Nodup :=
  ((List.perm_insertionSort obsLe l).symm).nodup h

lemma sortObs_sorted (l : List (String × Nat)) : List.Pairwise obsLe (sortObs l) :=
  List.sorted_insertionSort obsLe l

lemma postProcessGo_map_snd (l : List (String × Nat)) : ∀ st,
    (postProcessGo st l).map (·.2) = l.map (·.2) := by
  induction l with
  | nil =>
    intro st
    rfl
  | cons x rest ih =>
    intro st
    simp only [postProcessGo]
    cases hq : rfindSep x.1 with
    | some pos => simp only [List.map_cons, ih]
    | none =>
      cases st with
      | some q => simp only [List.map_cons, ih]
      | none => simp only [List.map_cons, ih]

/-- C6 (amended): the deduplicated observation list computed before the
back-fill pass has no duplicate (name, line) pair and is sorted ascending by
line number; the extraction pipeline applies the back-fill pass last, and
back-fill preserves the line numbers (hence the ascending order) — but it
may reintroduce duplicate (name, line) pairs, see the counterexample. -/
theorem c6_dedup_sort_order (parsed : SynFile) (functions : List FunctionInfo) :
    (sortObs (dedupObs (visit_file functions ⟨[], []⟩ parsed).called_functions)).Nodup ∧
    List.Pairwise (· ≤ ·)
      ((sortObs (dedupObs (visit_file functions ⟨[], []⟩ parsed).called_functions)).map (·.2)) ∧
    extract_called_functions (some parsed) functions =
      some (post_process_called_functions
        (sortObs (dedupObs (visit_file functions ⟨[], []⟩ parsed).called_functions))) ∧
    (post_process_called_functions
        (sortObs (dedupObs (visit_file functions ⟨[], []⟩ parsed).called_functions))).map (·.2) =
      (sortObs (dedupObs (visit_file functions ⟨[], []⟩ parsed).called_functions)).map (·.2) ∧
    List.Pairwise (· ≤ ·)
      ((post_process_called_functions
        (sortObs (dedupObs (visit_file functions ⟨[], []⟩ parsed).called_functions))).map (·.2)) := by
  have h1 : (sortObs (dedupObs (visit_file functions ⟨[], []⟩ parsed).called_functions)).Nodup :=
    sortObs_nodup _ (dedupObs_nodup _)
  have h2 : List.Pairwise (· ≤ ·)
      ((sortObs (dedupObs (visit_file functions ⟨[], []⟩ parsed).called_functions)).map (·.2)) := by
    rw [List.pairwise_map]
    exact sortObs_sorted _
  have h3 : (post_process_called_functions
      (sortObs (dedupObs (visit_file functions ⟨[], []⟩ parsed).called_functions))).map (·.2) =
      (sortObs (dedupObs (visit_file functions ⟨[], []⟩ parsed).called_functions)).map (·.2) :=
    postProcessGo_map_snd _ none
  refine ⟨h1, h2, rfl, h3, ?_⟩
  rw [h3]
  exact h2

/-- C6 counterexample: on this entry point the produced observation list
contains the pair `("Mod::bar", 1)` twice — the deduplicated, sorted list is
`[("Mod::bar", 1), ("bar", 1)]`, and the back-fill pass rewrites the second
observation into `("Mod::bar", 1)`, recreating a duplicate (name, line) pair
in the final list — refuting the claim that the produced observation list
never contains duplicates even when back-fill rewrites names. -/
theorem c6_duplicate_after_backfill :
    extract_called_functions (some c6_file) [] = some [("Mod::bar", 1), ("Mod::bar", 1)] ∧
    ¬ ([(("Mod::bar" : String), (1 : Nat)), ("Mod::bar", 1)]).Nodup := by
  constructor
  · decide
  · decide

lemma build_callsites_nil (fuel : Nat) (fmap : List (String × FunctionInfo))
    (v : List String) (d : Nat) : build_callsites fuel [] fmap v d = ("", v) := by
  cases fuel with
  | zero => rw [build_callsites]
  | succ fuel => rw [build_callsites]

lemma c2_mkLine (p : String) (ln : Int) :
    mkLine 0 "foo" p ln = "  foo " ++ p ++ " linenumber=" ++ toString ln ++ "\n" := by
  rw [mkLine]
  have h : repeatStr "  " (0 + 1) ++ stripSpaces "foo" ++ " " = "  foo " := by decide
  rw [h]

/-- C2: for an entry point whose trigger-macro body is `{ foo(data); }` (the
call to `foo` on line `L`) and a catalog holding one entry named `foo` with
no call edges, the produced output file's content is the `Call tree` header
line, the synthetic root line, and then — as its entire body — exactly the
single line `  foo <entry-point-path> linenumber=<line-of-foo-call>`. -/
theorem c2_single_leaf_line (p : String) (L : Nat)
    (fl rt : String) (ac : Nat) (an aty cf : List String) (sl el : Nat)
    (hL0 : 0 < L) (hL : L < 2 ^ 31) (fuel : Nat) :
    generate_call_trees (fuel + 1) (c2_parse L)
        (.cons (.file p (some "rs") "fuzz_target!") .nil)
        [⟨"foo", fl, rt, ac, an, aty, cf, [], sl, el⟩] =
      some ([("fuzzerLogFile-" ++ hyphenate (file_stem p) ++ ".data",
        "Call tree\n" ++ "fuzz_target " ++ p ++ " linenumber=-1\n" ++
          ("  foo " ++ p ++ " linenumber=" ++ toString (L : Int) ++ "\n"))],
        [(p, mkHarnessInfo p [("foo", L)])]) := by
  have h32 : L % 2 ^ 32 = L := Nat.mod_eq_of_lt (lt_trans hL (by norm_num))
  have husize : usizeToI32 L = (L : Int) := by
    simp only [usizeToI32, h32]
    rw [if_pos hL]
  have hln : (if (L : Int) = 0 then (-1 : Int) else (L : Int)) = (L : Int) := by
    rw [if_neg]
    intro hc
    have hL0' : L = 0 := by exact_mod_cast hc
    omega
  have hff : find_function "foo"
      [("foo", (⟨"foo", fl, rt, ac, an, aty, cf, [], sl, el⟩ : FunctionInfo))] =
      some ⟨"foo", fl, rt, ac, an, aty, cf, [], sl, el⟩ := rfl
  have hbuild : build_call_tree (fuel + 1) "foo"
      [("foo", (⟨"foo", fl, rt, ac, an, aty, cf, [], sl, el⟩ : FunctionInfo))] p (L : Int) [] 0 =
      (some (mkLine 0 "foo" p (L : Int) ++ ""), ["foo"]) := by
    rw [build_call_tree]
    simp only [hln, hff, build_callsites_nil]
    rw [if_neg (List.not_mem_nil "foo")]
    rw [if_neg (mkLine_append_ne_empty 0 "foo" p (L : Int) "")]
  have hrender : render_called (fuel + 1) [("foo", L)]
      [("foo", (⟨"foo", fl, rt, ac, an, aty, cf, [], sl, el⟩ : FunctionInfo))] p [] =
      ((mkLine 0 "foo" p (L : Int) ++ "") ++ "", ["foo"]) := by
    rw [render_called, husize, hbuild, render_called]
    rfl
  have hread : readFS (.cons (.file p (some "rs") "fuzz_target!") .nil) p =
      some "fuzz_target!" := by
    simp only [readFS, readFSEntry, beq_self_eq_true, ite_true]
  have hex : extract_called_functions (c2_parse L "fuzz_target!")
      [⟨"foo", fl, rt, ac, an, aty, cf, [], sl, el⟩] = some [("foo", L)] := rfl
  have hbm : buildFunctionMap [(⟨"foo", fl, rt, ac, an, aty, cf, [], sl, el⟩ : FunctionInfo)] =
      [("foo", ⟨"foo", fl, rt, ac, an, aty, cf, [], sl, el⟩)] := rfl
  have hharness : find_fuzzing_harnesses (.cons (.file p (some "rs") "fuzz_target!") .nil) =
      [p] := by
    simp only [find_fuzzing_harnesses, find_fuzzing_harnesses_entry]
    rw [if_pos (by decide)]
    simp
  have hbody : (mkLine 0 "foo" p (L : Int) ++ "") ++ "" =
      "  foo " ++ p ++ " linenumber=" ++ toString (L : Int) ++ "\n" := by
    rw [String.append_empty, String.append_empty, c2_mkLine]
  have hproc : process_harness (fuel + 1) (c2_parse L)
      (.cons (.file p (some "rs") "fuzz_target!") .nil)
      [⟨"foo", fl, rt, ac, an, aty, cf, [], sl, el⟩]
      [("foo", ⟨"foo", fl, rt, ac, an, aty, cf, [], sl, el⟩)] p =
      some (("fuzzerLogFile-" ++ hyphenate (file_stem p) ++ ".data",
        "Call tree\n" ++ "fuzz_target " ++ p ++ " linenumber=-1\n" ++
          ("  foo " ++ p ++ " linenumber=" ++ toString (L : Int) ++ "\n")),
        mkHarnessInfo p [("foo", L)]) := by
    simp only [process_harness, hread, hex, hrender, hbody]
  rw [generate_call_trees]
  simp only [hharness, hbm, generate_go, hproc]

/-- Witness for C2 at a concrete input: line 2 of file `fuzz/f_a.rs`. -/
theorem c2_single_leaf_line_witness :
    generate_call_trees 9 (c2_parse 2)
        (.cons (.file "fuzz/f_a.rs" (some "rs") "fuzz_target!") .nil)
        [⟨"foo", "src/lib.rs", "", 0, [], [], [], [], 0, 0⟩] =
      some ([("fuzzerLogFile-" ++ hyphenate (file_stem "fuzz/f_a.rs") ++ ".data",
        "Call tree\n" ++ "fuzz_target " ++ "fuzz/f_a.rs" ++ " linenumber=-1\n" ++
          ("  foo " ++ "fuzz/f_a.rs" ++ " linenumber=" ++ toString ((2 : Nat) : Int) ++ "\n"))],
        [("fuzz/f_a.rs", mkHarnessInfo "fuzz/f_a.rs" [("foo", 2)])]) :=
  c2_single_leaf_line "fuzz/f_a.rs" 2 "src/lib.rs" "" 0 [] [] [] 0 0
    (by decide) (by decide) 8

end CallTree
